import Mathlib

/-!
# Verification of SimpleImageViewer's inventory scanner and cached inventory service

Shallow embedding of `src/pages/api/images.ts`:

* `getImageFiles` (the Inventory Scanner) walks a directory tree with
  `fs.readdirSync(dirPath, { withFileTypes: true })`, keeps files whose
  lower-cased extension is on a fixed allow-list, recurses into directories,
  and silently swallows any read error of a single directory (`try/catch`
  around the listing loop).
* `handler` (the Cached Inventory Service) serves the scan result through a
  process-wide 30-second cache: non-GET requests get a 405, a fresh cache is
  returned unchanged, a missing root yields (and caches) the empty inventory,
  and any exception thrown inside the `try` block yields a 500 with the
  cache left untouched.

The filesystem is modelled as a tree: an entry is a regular file (with byte
size), a directory (with a readability flag — an unreadable directory is one
on which `readdirSync` throws), or some other node kind (symlink, socket,
FIFO — a `Dirent` for which both `isDirectory()` and `isFile()` are false).
The host path separator is a parameter `sep : Char` (`'/'` on POSIX, `'\\'`
on Windows), because `path.join` builds paths with the host separator.
-/

namespace SimpleImageViewer

/-- The `ImageData` interface of `src/pages/api/images.ts` (lines 5–11). -/
structure ImageData where
  name : String
  url : String
  path : String
  directory : String
  size : Nat
deriving Repr, DecidableEq

mutual
/-- A node of the filesystem tree.  `file` carries the `fs.statSync` size;
`dir` carries a readability flag (`readable = false` models a directory on
which `readdirSync` throws) and its listing; `other` is an entry that is
neither a regular file nor a directory (symlink, socket, FIFO). -/
inductive FSTree where
  | file (size : Nat) : FSTree
  | dir (readable : Bool) (entries : EntryList) : FSTree
  | other : FSTree

/-- A directory listing: the named entries, in the order `readdirSync`
yields them. -/
inductive EntryList where
  | nil : EntryList
  | cons (name : String) (tree : FSTree) (rest : EntryList) : EntryList
end

/-- The allow-list of line 22 of the source. -/
def imageExtensions : List String :=
  [".jpg", ".jpeg", ".png", ".gif", ".webp", ".svg"]

/-- Node's `path.extname` on a base name: the suffix from the last `'.'`
(inclusive), except that a name with no dot, or whose only leading position
holds the dot, has extension `""`. -/
def extname (s : String) : String :=
  let rev := s.data.reverse
  let suffix := rev.takeWhile (fun c => c ≠ '.')
  match rev.drop suffix.length with
  | [] => ""
  | _ :: rest => if rest.isEmpty then "" else ⟨'.' :: suffix.reverse⟩

/-- JavaScript's `String.prototype.toLowerCase` as used on line 38: maps each
character to lower case.  Modelled with `Char.toLower` (ASCII case mapping),
which agrees with the JavaScript function on every comparison against the
pure-ASCII allow-list. -/
def toLowerCase (s : String) : String := ⟨s.data.map Char.toLower⟩

/-- JavaScript's `relativeItemPath.replace(/\\/g, "/")` (line 43): every
backslash character becomes a forward slash. -/
def bsToSlash (s : String) : String :=
  ⟨s.data.map (fun c => if c = '\\' then '/' else c)⟩

/-- `path.join(relativePath, item.name)` guarded by the truthiness test of
lines 30–32: an empty `relativePath` yields the bare name, otherwise the two
are joined with the host separator. -/
def joinRel (sep : Char) (rel name : String) : String :=
  if rel = "" then name else rel ++ String.singleton sep ++ name

/-- The sentinel directory label `"根目录"` of line 45, produced by the
falsy-string test `relativePath || "根目录"`. -/
def rootLabel : String := "根目录"

/-- The descriptor pushed at lines 41–47 for an image file `name` of size
`size` found at relative path `relItem` inside the directory whose relative
path is `rel`. -/
def mkImage (name relItem rel : String) (size : Nat) : ImageData :=
  { name := name
    url := "/images/" ++ bsToSlash relItem
    path := relItem
    directory := if rel = "" then rootLabel else rel
    size := size }

/-- The loop body plus recursion of `getImageFiles` (lines 26–50), on the
listing of one readable directory.  A subdirectory is recursed into only when
it is readable — an unreadable one is the `catch` of lines 51–53: the recursive
call returns the empty accumulator.  An `other` entry matches neither
`isDirectory()` nor `isFile()` and contributes nothing. -/
def scanEntries (sep : Char) : EntryList → String → List ImageData
  | .nil, _ => []
  | .cons name (.dir b sub) rest, rel =>
      (if b then scanEntries sep sub (joinRel sep rel name) else [])
        ++ scanEntries sep rest rel
  | .cons name (.file size) rest, rel =>
      (if imageExtensions.contains (toLowerCase (extname name))
        then [mkImage name (joinRel sep rel name) rel size]
        else [])
        ++ scanEntries sep rest rel
  | .cons _ .other rest, rel => scanEntries sep rest rel
termination_by structural es _ => es

/-- `getImageFiles(dirPath, relativePath)` (lines 18–56) applied to the root
directory's listing: if `readdirSync` succeeds the listing is processed,
otherwise the `catch` returns the images accumulated so far — none. -/
def getImageFiles (sep : Char) (readable : Bool) (entries : EntryList)
    (relativePath : String := "") : List ImageData :=
  if readable then scanEntries sep entries relativePath else []

/-- The module-level cache of lines 14–15: `cachedImages` is `null` before the
first computation, and `cacheTimestamp` starts at `0`. -/
structure CacheState where
  cachedImages : Option (List ImageData)
  cacheTimestamp : Nat
deriving Repr, DecidableEq

/-- The state at process start. -/
def initialCache : CacheState := { cachedImages := none, cacheTimestamp := 0 }

/-- `CACHE_DURATION = 30 * 1000` (line 16), in milliseconds. -/
def CACHE_DURATION : Nat := 30 * 1000

/-- The observable outcome of one handler invocation: the HTTP status it
commits to together with the payload. `ok` is `res.status(200).json({images})`,
`methodNotAllowed` is the 405 of line 60, `serverError` is the 500 of the
`catch` block (lines 91–97). -/
inductive Response where
  | ok (images : List ImageData) : Response
  | methodNotAllowed : Response
  | serverError : Response
deriving Repr, DecidableEq

/-- The inputs of one handler invocation: the request method, `Date.now()`,
whether `fs.existsSync` finds the configured root, the root directory's
listing, and `scanFails`, which models an exception raised inside the `try`
block of lines 63–90 while touching the filesystem (the root-level I/O
failure of the design's error taxonomy) — raised before the cache-update
statements of lines 85–86 run. -/
structure Env where
  method : String
  now : Nat
  rootExists : Bool
  root : EntryList
  scanFails : Bool

/-- The cache-miss arm of the handler (lines 72–90, plus the `catch`): an
exception yields a 500 and leaves the cache alone; a missing root caches and
returns the empty inventory; otherwise the scan result is cached and
returned. -/
def handlerMiss (sep : Char) (env : Env) (st : CacheState) :
    Response × CacheState :=
  if env.scanFails then (.serverError, st)
  else if env.rootExists then
    let images := getImageFiles sep true env.root
    (.ok images, { cachedImages := some images, cacheTimestamp := env.now })
  else
    (.ok [], { cachedImages := some ([] : List ImageData), cacheTimestamp := env.now })

/-- `handler` (lines 58–98).  A non-GET method is rejected with 405 before
anything else.  The freshness test of line 66 is
`cachedImages && (now - cacheTimestamp) < CACHE_DURATION`: a JavaScript empty
array is truthy, so `some []` counts as an existing cache.  `Date.now()` never
precedes the stored timestamp in this model, so the truncated `Nat`
subtraction agrees with JavaScript number subtraction on the comparison. -/
def handler (sep : Char) (env : Env) (st : CacheState) :
    Response × CacheState :=
  if env.method ≠ "GET" then (.methodNotAllowed, st)
  else
    match st.cachedImages with
    | some imgs =>
        if env.now - st.cacheTimestamp < CACHE_DURATION then (.ok imgs, st)
        else handlerMiss sep env st
    | none => handlerMiss sep env st

/-- Concatenation of two directory listings (used to place a distinguished
entry at an arbitrary position of a listing). -/
def EntryList.append : EntryList → EntryList → EntryList
  | .nil, ys => ys
  | .cons n t rest, ys => .cons n t (rest.append ys)

/-- A listing as a list of name/node pairs, in `readdirSync` order. -/
def EntryList.toList : EntryList → List (String × FSTree)
  | .nil => []
  | .cons n t rest => (n, t) :: rest.toList

/-- The entry names of a listing, in order. -/
def EntryList.names : EntryList → List String
  | .nil => []
  | .cons n _ rest => n :: rest.names

/-- The relative path accumulated by the recursion after descending through
the chain of subdirectories named by `comps`, starting from `rel`. -/
def relFold (sep : Char) (rel : String) (comps : List String) : String :=
  comps.foldl (joinRel sep) rel

/-- The descriptor the scan emits for an image file `name` of size `size`
reached through the chain of subdirectories `comps`, in a scan whose root
carries relative path `rel`. -/
def descAt (sep : Char) (rel : String) (comps : List String) (name : String)
    (size : Nat) : ImageData :=
  mkImage name (joinRel sep (relFold sep rel comps) name) (relFold sep rel comps) size

/-- `IsImageAt es comps name size` holds when the tree rooted at listing `es`
contains, through the chain of *readable* subdirectories named by `comps`, a
regular file `name` of byte size `size` whose lower-cased extension is on the
allow-list — i.e. exactly the files the scanner is specified to discover. -/
inductive IsImageAt : EntryList → List String → String → Nat → Prop where
  | here {es : EntryList} {name : String} {size : Nat} :
      (name, FSTree.file size) ∈ es.toList →
      imageExtensions.contains (toLowerCase (extname name)) = true →
      IsImageAt es [] name size
  | there {es : EntryList} {d : String} {sub : EntryList} {comps : List String}
      {name : String} {size : Nat} :
      (d, FSTree.dir true sub) ∈ es.toList →
      IsImageAt sub comps name size →
      IsImageAt es (d :: comps) name size

/-- A character list that is either empty or starts with the separator — the
shape of whatever a scan appends after a complete entry name. -/
def SepLed (sep : Char) (t : List Char) : Prop :=
  t = [] ∨ ∃ r, t = sep :: r

mutual
/-- Entry names below this node are plausible `readdirSync` results. -/
def FSTree.wellNamed (sep : Char) : FSTree → Bool
  | .file _ => true
  | .other => true
  | .dir _ es => es.wellNamed sep

/-- Every entry name in the tree is a plausible `readdirSync` result: nonempty,
free of the host path separator, and without duplicates inside any single
directory listing. -/
def EntryList.wellNamed (sep : Char) : EntryList → Bool
  | .nil => true
  | .cons n t rest =>
      (n != "") && !(n.data.contains sep) && !(rest.names.contains n)
        && t.wellNamed sep && rest.wellNamed sep
end

/-- `HeadShape sep es rel p` records where a path produced by scanning the
listing `es` (whose own relative path is `rel`) must come from: some entry
name `n` of `es`, extended by nothing (the entry itself was the file) or by a
separator-led remainder (the file sat deeper inside subdirectory `n`). -/
def HeadShape (sep : Char) (es : EntryList) (rel : String) (p : String) : Prop :=
  ∃ n, n ∈ es.names ∧ sep ∉ n.data ∧
    ∃ t, SepLed sep t ∧ p.data = (joinRel sep rel n).data ++ t

/-- The scan of a concatenated listing is the concatenation of the scans:
the loop of lines 28–50 handles each entry independently. -/
theorem scanEntries_append (sep : Char) (xs ys : EntryList) (rel : String) :
    scanEntries sep (xs.append ys) rel
      = scanEntries sep xs rel ++ scanEntries sep ys rel := by
  match xs with
  | .nil => simp [EntryList.append, scanEntries]
  | .cons n (.dir b sub) rest =>
      simp [EntryList.append, scanEntries, scanEntries_append sep rest ys rel]
  | .cons n (.file size) rest =>
      simp [EntryList.append, scanEntries, scanEntries_append sep rest ys rel]
  | .cons n .other rest =>
      simp [EntryList.append, scanEntries, scanEntries_append sep rest ys rel]

/-- **C8**: a request whose method is not GET is rejected with the 405 of
line 60 before any cache access or filesystem operation: the handler returns
`methodNotAllowed` and the cache state is returned unchanged, whatever the
filesystem environment (`env.rootExists`, `env.root`, `env.scanFails` are
universally quantified, so no scan is attempted and no cache field moves). -/
theorem handler_rejects_non_get (sep : Char) (env : Env) (st : CacheState)
    (h : env.method ≠ "GET") :
    handler sep env st = (.methodNotAllowed, st) := by
  simp [handler, h]

/-- Witness: a concrete POST request against a non-empty filesystem is
rejected with the cache untouched. -/
theorem handler_rejects_non_get_witness :
    handler '/' { method := "POST", now := 5, rootExists := true,
                  root := .cons "a.png" (.file 10) .nil, scanFails := false }
        initialCache
      = (.methodNotAllowed, initialCache) :=
  handler_rejects_non_get '/' _ initialCache (by decide)

/-- **C7**: when the request misses the cache and the filesystem interaction
inside the `try` block raises (root-level I/O failure), the handler answers
with the distinguishable 500 response and the cache state — previously stored
inventory and timestamp — is exactly what it was before the request. -/
theorem handler_root_io_failure (sep : Char) (env : Env) (st : CacheState)
    (hm : env.method = "GET") (hf : env.scanFails = true)
    (hmiss : st.cachedImages = none ∨ CACHE_DURATION ≤ env.now - st.cacheTimestamp) :
    handler sep env st = (.serverError, st) ∧
      ∀ imgs : List ImageData, (Response.serverError ≠ .ok imgs) := by
  refine ⟨?_, fun imgs h => Response.noConfusion h⟩
  rcases hc : st.cachedImages with _ | imgs
  · simp [handler, hm, hc, handlerMiss, hf]
  · rcases hmiss with hnone | hstale
    · rw [hc] at hnone; exact absurd hnone (by simp)
    · simp [handler, hm, hc, Nat.not_lt.mpr hstale, handlerMiss, hf]

/-- Witness: a concrete failing scan with a populated, stale cache returns a
500 and leaves the stale entry in place. -/
theorem handler_root_io_failure_witness :
    handler '/' { method := "GET", now := 50000, rootExists := true,
                  root := .nil, scanFails := true }
        { cachedImages := some [mkImage "a.png" "a.png" "" 10], cacheTimestamp := 0 }
      = (.serverError,
         { cachedImages := some [mkImage "a.png" "a.png" "" 10], cacheTimestamp := 0 }) :=
  (handler_root_io_failure '/' _ _ rfl rfl (Or.inr (by decide))).1

/-- **C6**: on a cache miss with a missing root (and no exception), the
handler answers 200 with the empty inventory and stores it with the current
time as the cache entry; any further GET issued within the freshness window —
whatever its filesystem environment, in particular even if the root now
exists or the filesystem would fail — returns the same empty inventory with
the cache unchanged, so existence is not re-checked. -/
theorem handler_missing_root (sep : Char) (env env2 : Env) (st : CacheState)
    (hm : env.method = "GET")
    (hmiss : st.cachedImages = none ∨ CACHE_DURATION ≤ env.now - st.cacheTimestamp)
    (hf : env.scanFails = false) (hr : env.rootExists = false) :
    handler sep env st
        = (.ok [], { cachedImages := some [], cacheTimestamp := env.now }) ∧
      (env2.method = "GET" → env2.now - env.now < CACHE_DURATION →
        handler sep env2 { cachedImages := some [], cacheTimestamp := env.now }
          = (.ok [], { cachedImages := some [], cacheTimestamp := env.now })) := by
  constructor
  · rcases hc : st.cachedImages with _ | imgs
    · simp [handler, hm, hc, handlerMiss, hf, hr]
    · rcases hmiss with hnone | hstale
      · rw [hc] at hnone; exact absurd hnone (by simp)
      · simp [handler, hm, hc, Nat.not_lt.mpr hstale, handlerMiss, hf, hr]
  · intro hm2 hfresh
    simp [handler, hm2, hfresh]

/-- Witness: querying a missing root at t = 100 caches the empty inventory;
a second query at t = 120 — now with an existing root and a failing
filesystem — still answers the cached empty inventory. -/
theorem handler_missing_root_witness :
    handler '/' { method := "GET", now := 100, rootExists := false,
                  root := .nil, scanFails := false } initialCache
        = (.ok [], { cachedImages := some [], cacheTimestamp := 100 }) ∧
      handler '/' { method := "GET", now := 120, rootExists := true,
                    root := .cons "a.png" (.file 10) .nil, scanFails := true }
          { cachedImages := some [], cacheTimestamp := 100 }
        = (.ok [], { cachedImages := some [], cacheTimestamp := 100 }) :=
  ⟨(handler_missing_root '/' _
      { method := "GET", now := 120, rootExists := true,
        root := .cons "a.png" (.file 10) .nil, scanFails := true }
      initialCache rfl (Or.inl rfl) rfl rfl).1,
   (handler_missing_root '/'
      { method := "GET", now := 100, rootExists := false,
        root := .nil, scanFails := false } _
      initialCache rfl (Or.inl rfl) rfl rfl).2 rfl (by decide)⟩

/-- **C1**: the cache discipline of lines 63–90.  (1) If a cached inventory
exists and `now - cacheTimestamp < CACHE_DURATION`, the handler returns
exactly the cached content and the state unchanged — the conclusion does not
mention `env.root`, `env.rootExists` or `env.scanFails`, so the scanner is
not invoked (the fresh branch holds even for `scanFails = true`).  (2) On a
miss (no cache, or window elapsed) without an exception, it returns the
scanner's result for the configured root and stores it with timestamp
`env.now` as the new cache entry (a missing root behaves as a scan whose
`readdirSync` fails immediately, i.e. yields the empty inventory). -/
theorem handler_cache_semantics (sep : Char) (env : Env) (st : CacheState)
    (hm : env.method = "GET") :
    (∀ imgs, st.cachedImages = some imgs →
        env.now - st.cacheTimestamp < CACHE_DURATION →
        handler sep env st = (.ok imgs, st)) ∧
      ((st.cachedImages = none ∨ CACHE_DURATION ≤ env.now - st.cacheTimestamp) →
        env.scanFails = false →
        handler sep env st
          = (.ok (getImageFiles sep env.rootExists env.root),
             { cachedImages := some (getImageFiles sep env.rootExists env.root),
               cacheTimestamp := env.now })) := by
  constructor
  · intro imgs hc hfresh
    simp [handler, hm, hc, hfresh]
  · intro hmiss hf
    have hrunc : handlerMiss sep env st
        = (.ok (getImageFiles sep env.rootExists env.root),
           { cachedImages := some (getImageFiles sep env.rootExists env.root),
             cacheTimestamp := env.now }) := by
      rcases hre : env.rootExists with _ | _
      · simp [handlerMiss, hf, hre, getImageFiles]
      · simp [handlerMiss, hf, hre, getImageFiles]
    rcases hc : st.cachedImages with _ | imgs
    · simpa [handler, hm, hc] using hrunc
    · rcases hmiss with hnone | hstale
      · rw [hc] at hnone; exact absurd hnone (by simp)
      · simpa [handler, hm, hc, Nat.not_lt.mpr hstale] using hrunc

/-- Witness: a fresh cache at t = 110 (stored at t = 100) is served as-is even
though the filesystem would fail; a stale cache at t = 40000 is replaced by
the fresh scan of the root, stored with the new timestamp. -/
theorem handler_cache_semantics_witness :
    handler '/' { method := "GET", now := 110, rootExists := true,
                  root := .nil, scanFails := true }
        { cachedImages := some [mkImage "a.png" "a.png" "" 10], cacheTimestamp := 100 }
      = (.ok [mkImage "a.png" "a.png" "" 10],
         { cachedImages := some [mkImage "a.png" "a.png" "" 10], cacheTimestamp := 100 }) ∧
    handler '/' { method := "GET", now := 40000, rootExists := true,
                  root := .cons "b.gif" (.file 7) .nil, scanFails := false }
        { cachedImages := some [mkImage "a.png" "a.png" "" 10], cacheTimestamp := 100 }
      = (.ok [mkImage "b.gif" "b.gif" "" 7],
         { cachedImages := some [mkImage "b.gif" "b.gif" "" 7], cacheTimestamp := 40000 }) :=
  ⟨(handler_cache_semantics '/'
      { method := "GET", now := 110, rootExists := true, root := .nil, scanFails := true }
      _ rfl).1 _ rfl (by decide),
   by
    have h := (handler_cache_semantics '/'
      { method := "GET", now := 40000, rootExists := true,
        root := .cons "b.gif" (.file 7) .nil, scanFails := false }
      { cachedImages := some [mkImage "a.png" "a.png" "" 10], cacheTimestamp := 100 }
      rfl).2 (Or.inr (by decide)) rfl
    simpa using h⟩

/-- Reachability is preserved when a listing grows by one entry in front. -/
theorem IsImageAt.weaken {es : EntryList} {comps : List String} {name : String}
    {size : Nat} (n : String) (t : FSTree)
    (h : IsImageAt es comps name size) :
    IsImageAt (.cons n t es) comps name size := by
  cases h with
  | here hmem hext =>
      exact .here (List.mem_cons_of_mem _ hmem) hext
  | there hmem hsub =>
      exact .there (List.mem_cons_of_mem _ hmem) hsub

/-- A reachable image file always carries an allow-listed extension. -/
theorem IsImageAt.ext_allowed {es : EntryList} {comps : List String}
    {name : String} {size : Nat} (h : IsImageAt es comps name size) :
    imageExtensions.contains (toLowerCase (extname name)) = true := by
  induction h with
  | here _ hext => exact hext
  | there _ _ ih => exact ih

/-- A file entry of the listing with an allow-listed extension contributes its
descriptor to the scan. -/
theorem mem_scan_of_file (sep : Char) (es : EntryList) (rel name : String)
    (size : Nat) (hmem : (name, FSTree.file size) ∈ es.toList)
    (hext : imageExtensions.contains (toLowerCase (extname name)) = true) :
    mkImage name (joinRel sep rel name) rel size ∈ scanEntries sep es rel := by
  match es with
  | .nil => exact absurd hmem (List.not_mem_nil _)
  | .cons n t rest =>
      rcases List.mem_cons.1 hmem with heq | htail
      · obtain ⟨rfl, rfl⟩ := Prod.mk.injEq .. ▸ heq
        rw [scanEntries, if_pos hext]
        exact List.mem_append_left _ (List.mem_singleton.2 rfl)
      · have ih := mem_scan_of_file sep rest rel name size htail hext
        match t with
        | .dir b sub => rw [scanEntries]; exact List.mem_append_right _ ih
        | .file s => rw [scanEntries]; exact List.mem_append_right _ ih
        | .other => rw [scanEntries]; exact ih

/-- Anything the scan of a readable subdirectory of the listing produces is
also produced by the scan of the listing. -/
theorem mem_scan_of_dir (sep : Char) (es : EntryList) (rel dn : String)
    (sub : EntryList) (x : ImageData)
    (hmem : (dn, FSTree.dir true sub) ∈ es.toList)
    (hx : x ∈ scanEntries sep sub (joinRel sep rel dn)) :
    x ∈ scanEntries sep es rel := by
  match es with
  | .nil => exact absurd hmem (List.not_mem_nil _)
  | .cons n t rest =>
      rcases List.mem_cons.1 hmem with heq | htail
      · obtain ⟨rfl, rfl⟩ := Prod.mk.injEq .. ▸ heq
        rw [scanEntries, if_pos rfl]
        exact List.mem_append_left _ hx
      · have ih := mem_scan_of_dir sep rest rel dn sub x htail hx
        match t with
        | .dir b s => rw [scanEntries]; exact List.mem_append_right _ ih
        | .file s => rw [scanEntries]; exact List.mem_append_right _ ih
        | .other => rw [scanEntries]; exact ih

/-- Every reachable image file's descriptor is in the scan (completeness of
the traversal). -/
theorem scan_mem_of_isImageAt (sep : Char) {es : EntryList}
    {comps : List String} {name : String} {size : Nat}
    (h : IsImageAt es comps name size) :
    ∀ rel : String, descAt sep rel comps name size ∈ scanEntries sep es rel := by
  induction h with
  | here hmem hext =>
      intro rel
      exact mem_scan_of_file sep _ rel _ _ hmem hext
  | there hmem _ ih =>
      intro rel
      exact mem_scan_of_dir sep _ rel _ _ _ hmem (ih (joinRel sep rel _))

/-- Everything the scan produces is the descriptor of a reachable image file
(soundness of the traversal). -/
theorem scan_isImageAt_of_mem (sep : Char) (es : EntryList) (rel : String)
    (d : ImageData) (h : d ∈ scanEntries sep es rel) :
    ∃ comps name size, IsImageAt es comps name size ∧
      d = descAt sep rel comps name size := by
  match es with
  | .nil => rw [scanEntries] at h; exact absurd h (List.not_mem_nil d)
  | .cons n (.dir b sub) rest =>
      rw [scanEntries] at h
      rcases List.mem_append.1 h with h1 | h2
      · rcases b with _ | _
        · simp at h1
        · simp only [if_true] at h1
          obtain ⟨comps, name, size, hat, hd⟩ :=
            scan_isImageAt_of_mem sep sub (joinRel sep rel n) d h1
          exact ⟨n :: comps, name, size,
            .there (List.mem_cons_self ..) hat, hd⟩
      · obtain ⟨comps, name, size, hat, hd⟩ :=
          scan_isImageAt_of_mem sep rest rel d h2
        exact ⟨comps, name, size, hat.weaken n _, hd⟩
  | .cons n (.file size) rest =>
      rw [scanEntries] at h
      rcases List.mem_append.1 h with h1 | h2
      · split at h1
        next hext =>
          exact ⟨[], n, size,
            .here (List.mem_cons_self ..) (by exact hext), List.mem_singleton.1 h1⟩
        next => exact absurd h1 (List.not_mem_nil d)
      · obtain ⟨comps, name, size', hat, hd⟩ :=
          scan_isImageAt_of_mem sep rest rel d h2
        exact ⟨comps, name, size', hat.weaken n _, hd⟩
  | .cons n .other rest =>
      rw [scanEntries] at h
      obtain ⟨comps, name, size, hat, hd⟩ :=
        scan_isImageAt_of_mem sep rest rel d h
      exact ⟨comps, name, size, hat.weaken n _, hd⟩

/-- **C5**: an unreadable subdirectory (one on which `readdirSync` throws, so
the `catch` of lines 51–53 fires inside the recursive call) contributes no
descriptors, and the scan of the surrounding listing is exactly the scan of
the entries before it followed by the scan of the entries after it — sibling
subtrees are unaffected.  The scanner's return type is a plain list, so the
swallowed failure is never surfaced to the caller as an error. -/
theorem scan_unreadable_subdir_isolated (sep : Char) (front : EntryList)
    (name : String) (sub rest : EntryList) (rel : String) :
    scanEntries sep (front.append (.cons name (.dir false sub) rest)) rel
      = scanEntries sep front rel ++ scanEntries sep rest rel := by
  rw [scanEntries_append]
  rw [scanEntries]
  simp

/-- **C10**: a directory entry that is neither a regular file nor a directory
(`isDirectory()` and `isFile()` both false: symlink, socket, FIFO) produces no
descriptor and is not recursed into, whatever its name — in particular even a
name with an allow-listed image extension, since `name` here is universally
quantified (e.g. `"x.jpg"`). -/
theorem scan_skips_special_entries (sep : Char) (front : EntryList)
    (name : String) (rest : EntryList) (rel : String) :
    scanEntries sep (front.append (.cons name .other rest)) rel
      = scanEntries sep front rel ++ scanEntries sep rest rel := by
  rw [scanEntries_append]
  rw [scanEntries]

/-- **C2 is refuted by the code**: line 44 stores `relativeItemPath` into the
`path` field without the backslash replacement that line 43 applies to `url`.
On a host whose separator is `'\'`, the image `b/c.jpg` gets
`path = "b\c.jpg"` — which contains a backslash and differs from its
forward-slash form — while its `url` is the normalized
`"/images/b/c.jpg"`. -/
theorem scan_path_keeps_host_separator :
    (getImageFiles '\\' true
        (.cons "b" (.dir true (.cons "c.jpg" (.file 20) .nil)) .nil)).map
        ImageData.path
      = ["b\\c.jpg"] ∧
    (getImageFiles '\\' true
        (.cons "b" (.dir true (.cons "c.jpg" (.file 20) .nil)) .nil)).map
        ImageData.url
      = ["/images/b/c.jpg"] ∧
    '\\' ∈ "b\\c.jpg".data ∧ "b\\c.jpg" ≠ "b/c.jpg" := by
  refine ⟨by decide, by decide, by decide, by decide⟩

/-- **C2 amended**: for every descriptor a scan produces, `url` is derived
from the `path` field as `/images/` followed by `path` with every backslash
replaced by a forward slash; `path` itself is built with the host separator
and is only incidentally forward-slashed on forward-slash hosts. -/
theorem scan_url_normalized (sep : Char) (es : EntryList) (rel : String)
    (d : ImageData) (h : d ∈ scanEntries sep es rel) :
    d.url = "/images/" ++ bsToSlash d.path := by
  match es with
  | .nil => rw [scanEntries] at h; exact absurd h (List.not_mem_nil d)
  | .cons n (.dir b sub) rest =>
      rw [scanEntries] at h
      rcases List.mem_append.1 h with h1 | h2
      · rcases b with _ | _
        · simp at h1
        · simp only [if_true] at h1
          exact scan_url_normalized sep sub (joinRel sep rel n) d h1
      · exact scan_url_normalized sep rest rel d h2
  | .cons n (.file size) rest =>
      rw [scanEntries] at h
      rcases List.mem_append.1 h with h1 | h2
      · split at h1
        · rw [List.mem_singleton.1 h1]
          rfl
        · exact absurd h1 (List.not_mem_nil d)
      · exact scan_url_normalized sep rest rel d h2
  | .cons n .other rest =>
      rw [scanEntries] at h
      exact scan_url_normalized sep rest rel d h

/-- Witness: on a backslash host, the descriptor for `b/c.jpg` satisfies the
amended derivation `url = "/images/" ++ bsToSlash path`. -/
theorem scan_url_normalized_witness :
    mkImage "c.jpg" "b\\c.jpg" "b" 20
        ∈ scanEntries '\\'
            (.cons "b" (.dir true (.cons "c.jpg" (.file 20) .nil)) .nil) "" ∧
      (mkImage "c.jpg" "b\\c.jpg" "b" 20).url
        = "/images/" ++ bsToSlash (mkImage "c.jpg" "b\\c.jpg" "b" 20).path :=
  ⟨by decide,
   scan_url_normalized '\\'
     (.cons "b" (.dir true (.cons "c.jpg" (.file 20) .nil)) .nil) ""
     (mkImage "c.jpg" "b\\c.jpg" "b" 20) (by decide)⟩

/-- Strings with the same character data are the same string. -/
theorem string_eq_of_data {s t : String} (h : s.data = t.data) : s = t := by
  cases s
  cases t
  simp only at h
  rw [h]

/-- The character data of a joined relative path. -/
theorem joinRel_data (sep : Char) (rel n : String) :
    (joinRel sep rel n).data
      = if rel = "" then n.data else rel.data ++ sep :: n.data := by
  unfold joinRel
  split
  · rfl
  · rw [String.data_append, String.data_append, List.append_assoc]
    rfl

/-- Joining a nonempty name never yields the empty path. -/
theorem joinRel_ne_empty (sep : Char) (rel n : String) (hn : n ≠ "") :
    joinRel sep rel n ≠ "" := by
  intro h
  have hd := congrArg String.data h
  rw [joinRel_data] at hd
  split at hd
  · exact hn (string_eq_of_data hd)
  · simp at hd

/-- Two complete names followed by separator-led (or empty) remainders can
only concatenate to the same character list if the names agree. -/
theorem name_tail_eq (sep : Char) (n : List Char) :
    ∀ (n' t t' : List Char), sep ∉ n → sep ∉ n' → SepLed sep t → SepLed sep t' →
      n ++ t = n' ++ t' → n = n' := by
  induction n with
  | nil =>
      intro n' t t' hn hn' ht ht' heq
      cases n' with
      | nil => rfl
      | cons c n'' =>
          exfalso
          simp only [List.nil_append, List.cons_append] at heq
          rcases ht with rfl | ⟨r, rfl⟩
          · exact List.cons_ne_nil c _ heq.symm
          · have hc : sep = c := (List.cons.injEq .. ▸ heq).1
            exact hn' (hc ▸ List.mem_cons_self c n'')
  | cons c n'' ih =>
      intro n' t t' hn hn' ht ht' heq
      cases n' with
      | nil =>
          exfalso
          simp only [List.nil_append, List.cons_append] at heq
          rcases ht' with rfl | ⟨r, rfl⟩
          · exact List.cons_ne_nil c _ heq
          · have hc : c = sep := (List.cons.injEq .. ▸ heq).1
            exact hn (hc ▸ List.mem_cons_self c n'')
      | cons c' n''' =>
          simp only [List.cons_append, List.cons.injEq] at heq
          obtain ⟨rfl, heq2⟩ := heq
          have hn2 : sep ∉ n'' := fun hm => hn (List.mem_cons_of_mem _ hm)
          have hn3 : sep ∉ n''' := fun hm => hn' (List.mem_cons_of_mem _ hm)
          rw [ih n''' t t' hn2 hn3 ht ht' heq2]

/-- Two scan paths that agree must descend through the same entry of the
current listing. -/
theorem head_name_eq (sep : Char) {rel n n' : String} {t t' : List Char}
    (hn : sep ∉ n.data) (hn' : sep ∉ n'.data)
    (ht : SepLed sep t) (ht' : SepLed sep t')
    (heq : (joinRel sep rel n).data ++ t = (joinRel sep rel n').data ++ t') :
    n = n' := by
  by_cases hrel : rel = ""
  · rw [joinRel_data, joinRel_data, if_pos hrel, if_pos hrel] at heq
    exact string_eq_of_data (name_tail_eq sep n.data n'.data t t' hn hn' ht ht' heq)
  · rw [joinRel_data, joinRel_data, if_neg hrel, if_neg hrel,
      List.append_assoc, List.append_assoc] at heq
    have heq2 := List.append_cancel_left heq
    simp only [List.cons_append, List.cons.injEq, true_and] at heq2
    exact string_eq_of_data (name_tail_eq sep n.data n'.data t t' hn hn' ht ht' heq2)

/-- A path shaped for the scan of subdirectory `n` is, one level up, shaped
for the scan of the surrounding listing: the remainder grows a leading
separator. -/
theorem shape_lift (sep : Char) (rel n : String) (hne : n ≠ "") (p m : String)
    (tt : List Char)
    (hpd : p.data = (joinRel sep (joinRel sep rel n) m).data ++ tt) :
    p.data = (joinRel sep rel n).data ++ (sep :: (m.data ++ tt)) := by
  rw [joinRel_data, if_neg (joinRel_ne_empty sep rel n hne)] at hpd
  rw [hpd, List.append_assoc, List.cons_append]

/-- Unpacking the well-namedness of a non-empty listing. -/
theorem wellNamed_cons {sep : Char} {n : String} {t : FSTree} {rest : EntryList}
    (h : (EntryList.cons n t rest).wellNamed sep = true) :
    n ≠ "" ∧ sep ∉ n.data ∧ n ∉ rest.names ∧ t.wellNamed sep = true
      ∧ rest.wellNamed sep = true := by
  rw [EntryList.wellNamed] at h
  simp only [Bool.and_eq_true, bne_iff_ne, ne_eq, Bool.not_eq_true',
    List.contains_iff_exists_mem_beq, beq_iff_eq] at h
  obtain ⟨⟨⟨⟨h1, h2⟩, h3⟩, h4⟩, h5⟩ := h
  refine ⟨h1, ?_, ?_, h4, h5⟩
  · intro hm
    rw [(by simp [List.contains_iff_exists_mem_beq] :
      (n.data.contains sep = true) ↔ sep ∈ n.data).2 hm] at h2
    exact Bool.noConfusion h2
  · intro hm
    rw [(by simp [List.contains_iff_exists_mem_beq] :
      (rest.names.contains n = true) ↔ n ∈ rest.names).2 hm] at h3
    exact Bool.noConfusion h3

/-- In a well-named tree, the scan's paths are pairwise distinct, and each
path descends through a distinguishable entry of the current listing. -/
theorem scan_paths_strong (sep : Char) (es : EntryList) :
    ∀ rel : String, es.wellNamed sep = true →
      ((scanEntries sep es rel).map ImageData.path).Nodup ∧
      ∀ p ∈ (scanEntries sep es rel).map ImageData.path, HeadShape sep es rel p := by
  match es with
  | .nil =>
      intro rel _
      rw [scanEntries]
      exact ⟨List.nodup_nil, by intro p hp; exact absurd hp (List.not_mem_nil p)⟩
  | .cons n t rest =>
      intro rel h
      obtain ⟨hne, hsep, hnotin, hwt, hwr⟩ := wellNamed_cons h
      obtain ⟨ihrN, ihrS⟩ := scan_paths_strong sep rest rel hwr
      have liftRest : ∀ p, HeadShape sep rest rel p →
          HeadShape sep (.cons n t rest) rel p := by
        intro p ⟨m, hm, hms, tt, htt, hpd⟩
        exact ⟨m, List.mem_cons_of_mem _ hm, hms, tt, htt, hpd⟩
      match t with
      | .other =>
          rw [scanEntries]
          exact ⟨ihrN, fun p hp => liftRest p (ihrS p hp)⟩
      | .file size =>
          rw [scanEntries]
          rcases hext : imageExtensions.contains (toLowerCase (extname n)) with _ | _
          · simp only [hext, Bool.false_eq_true, if_false, List.nil_append]
            exact ⟨ihrN, fun p hp => liftRest p (ihrS p hp)⟩
          · simp only [hext, if_true, List.singleton_append, List.map_cons]
            constructor
            · refine List.nodup_cons.2 ⟨?_, ihrN⟩
              intro hq
              obtain ⟨m, hm, hms, tt, htt, hpd⟩ := ihrS _ hq
              have hpq : (joinRel sep rel n).data ++ ([] : List Char)
                  = (joinRel sep rel m).data ++ tt := by
                rw [List.append_nil]
                exact hpd
              exact hnotin (head_name_eq sep hsep hms (Or.inl rfl) htt hpq ▸ hm)
            · intro p hp
              rcases List.mem_cons.1 hp with rfl | hp'
              · exact ⟨n, List.mem_cons_self .., hsep, [], Or.inl rfl,
                  (List.append_nil _).symm⟩
              · exact liftRest p (ihrS p hp')
      | .dir b sub =>
          rcases b with _ | _
          · rw [scanEntries]
            simp only [Bool.false_eq_true, if_false, List.nil_append]
            exact ⟨ihrN, fun p hp => liftRest p (ihrS p hp)⟩
          · have hwsub : sub.wellNamed sep = true := by
              rw [FSTree.wellNamed] at hwt
              exact hwt
            obtain ⟨ihsN, ihsS⟩ := scan_paths_strong sep sub (joinRel sep rel n) hwsub
            rw [scanEntries]
            simp only [if_true, List.map_append]
            have liftSub : ∀ p, HeadShape sep sub (joinRel sep rel n) p →
                ∃ tt, SepLed sep tt ∧ p.data = (joinRel sep rel n).data ++ tt := by
              intro p ⟨m, hm, hms, tt, htt, hpd⟩
              exact ⟨sep :: (m.data ++ tt), Or.inr ⟨_, rfl⟩,
                shape_lift sep rel n hne p m tt hpd⟩
            constructor
            · refine List.nodup_append.2 ⟨ihsN, ihrN, ?_⟩
              intro p hp1 hp2
              obtain ⟨tt, htt, hpd⟩ := liftSub p (ihsS p hp1)
              obtain ⟨m2, hm2, hms2, t2, ht2, hpd2⟩ := ihrS p hp2
              exact hnotin
                (head_name_eq sep hsep hms2 htt ht2 (hpd.symm.trans hpd2) ▸ hm2)
            · intro p hp
              rcases List.mem_append.1 hp with hp1 | hp2
              · obtain ⟨tt, htt, hpd⟩ := liftSub p (ihsS p hp1)
                exact ⟨n, List.mem_cons_self .., hsep, tt, htt, hpd⟩
              · exact liftRest p (ihrS p hp2)

/-- **C9**: no two descriptors of one scan share the same `path`.  The
hypothesis `wellNamed` states that the tree's listings are possible
`readdirSync` outputs: no duplicate names within one listing — as the claim
assumes — together with the two facts true of every real directory entry
name, that it is nonempty and cannot contain the host path separator. -/
theorem scan_paths_unique (sep : Char) (es : EntryList) (rel : String)
    (h : es.wellNamed sep = true) :
    ((scanEntries sep es rel).map ImageData.path).Nodup :=
  (scan_paths_strong sep es rel h).1

/-- Witness: a tree that reuses the name `a.png` at two different depths still
yields pairwise-distinct paths. -/
theorem scan_paths_unique_witness :
    (EntryList.cons "a.png" (.file 10)
        (.cons "b" (.dir true (.cons "a.png" (.file 20) .nil)) .nil)).wellNamed '/'
        = true ∧
      ((scanEntries '/'
          (.cons "a.png" (.file 10)
            (.cons "b" (.dir true (.cons "a.png" (.file 20) .nil)) .nil)) "").map
          ImageData.path).Nodup :=
  ⟨by decide, scan_paths_unique '/' _ "" (by decide)⟩

/-- **C4**: the scan inventory contains a descriptor exactly for the image
files reachable in the tree — at any depth, the root (depth 0) included —
and that descriptor's fields are determined by the file's location: `name`
is the base name, `size` the byte length, `path` the nesting-reflecting
relative path, `directory` the containing folder's relative path (the
sentinel root label for files directly under the root) and `url` the derived
locator; all spelled out by `descAt`.  Together with the second conjunct —
pairwise-distinct paths on well-named trees — each image file is described
exactly once: at least once by the equivalence, at most once because two
descriptors of the same file would share their `path`. -/
theorem scan_complete_inventory (sep : Char) (es : EntryList) :
    (∀ d : ImageData,
        d ∈ getImageFiles sep true es ↔
          ∃ comps name size, IsImageAt es comps name size ∧
            d = descAt sep "" comps name size) ∧
      (es.wellNamed sep = true →
        ((getImageFiles sep true es).map ImageData.path).Nodup) := by
  constructor
  · intro d
    constructor
    · intro h
      exact scan_isImageAt_of_mem sep es "" d h
    · rintro ⟨comps, name, size, hat, rfl⟩
      exact scan_mem_of_isImageAt sep hat ""
  · intro h
    exact (scan_paths_strong sep es "" h).1

/-- Witness: in the spec's example tree the nested image `b/c.jpg` is listed
(via the equivalence) and the paths are distinct (via the second conjunct). -/
theorem scan_complete_inventory_witness :
    descAt '/' "" ["b"] "c.jpg" 20
        ∈ getImageFiles '/' true
            (.cons "a.png" (.file 10)
              (.cons "b"
                (.dir true (.cons "c.jpg" (.file 20)
                  (.cons "notes.txt" (.file 3) .nil)))
                .nil)) ∧
      ((getImageFiles '/' true
          (.cons "a.png" (.file 10)
            (.cons "b"
              (.dir true (.cons "c.jpg" (.file 20)
                (.cons "notes.txt" (.file 3) .nil)))
              .nil))).map ImageData.path).Nodup :=
  ⟨((scan_complete_inventory '/' _).1 _).mpr
      ⟨["b"], "c.jpg", 20,
        .there (List.mem_cons_of_mem _ (List.mem_cons_self ..))
          (.here (List.mem_cons_self ..) (by decide)),
        rfl⟩,
    (scan_complete_inventory '/' _).2 (by decide)⟩

/-- **C3**: a file entry contributes a descriptor exactly when its extension,
lower-cased, is on the allow-list (first conjunct: the branch of lines
38–48); conversely every descriptor a scan ever produces carries an
allow-listed extension (second conjunct), so files with any other extension
are silently excluded.  The comparison lower-cases the extension first, so
any case variant is accepted — e.g. `.JPG` (third conjunct) — while
non-image extensions are rejected (fourth conjunct). -/
theorem scan_extension_filter (sep : Char) (rel : String) :
    (∀ name size rest,
        scanEntries sep (.cons name (.file size) rest) rel
          = (if imageExtensions.contains (toLowerCase (extname name))
              then [mkImage name (joinRel sep rel name) rel size] else [])
            ++ scanEntries sep rest rel) ∧
      (∀ es (d : ImageData), d ∈ scanEntries sep es rel →
        imageExtensions.contains (toLowerCase (extname d.name)) = true) ∧
      imageExtensions.contains (toLowerCase (extname "photo.JPG")) = true ∧
      imageExtensions.contains (toLowerCase (extname "notes.txt")) = false := by
  refine ⟨fun name size rest => by rw [scanEntries], ?_, by decide, by decide⟩
  intro es d h
  obtain ⟨comps, name, size, hat, rfl⟩ := scan_isImageAt_of_mem sep es rel d h
  exact hat.ext_allowed

/-- Witness: the upper-cased `PHOTO.JPG` is included by a concrete scan, and
its extension passes the filter. -/
theorem scan_extension_filter_witness :
    imageExtensions.contains (toLowerCase (extname
        (mkImage "PHOTO.JPG" "PHOTO.JPG" "" 4).name)) = true :=
  (scan_extension_filter '/' "").2.1 (.cons "PHOTO.JPG" (.file 4) .nil)
    (mkImage "PHOTO.JPG" "PHOTO.JPG" "" 4) (by decide)

end SimpleImageViewer
